import Mathlib

/-!
Verification of the Personal Finance Tracker (src/main.py) against its
specification.

The program is a CSV-backed expense tracker.  The embedding below models:
  * the transaction record (`Txn`) and the persisted CSV row (`RawRow`),
  * Python `float()` parsing: the full input grammar (`parsePyFloat`, with
    NaN, the infinities, exponents and underscore digit grouping) for the
    amount prompt, the decimal fragment (`parseFloat`) for the store-read
    path — the two agree on every row the program writes
    (`parsePyFloat_serializeDecimal`) — and the rendering of a parsed
    amount back to the file (`serializeDecimal`),
  * the aggregation pipeline of `spending_summary` / `ai_advisor`
    (`df.groupby('Category')['Amount'].sum().sort_values(ascending=False)`),
  * the advice table of `ai_advisor`, and the menu-level session loop.

Pandas semantics captured by the model (main.py lines 183 and 305):
  * `groupby('Category')` with the default `sort=True` orders the group keys
    ascending by the Python string order (Unicode code points);
  * `Series.sort_values(ascending=False)` computes an ascending argsort of
    the values and then reverses the whole indexer, so elements with equal
    values come out in reversed relative order.  The ascending argsort is
    modelled as a stable sort (numpy uses insertion sort for the array sizes
    at hand; for larger arrays the order of equal keys is unspecified, and
    the stable determinization is the one pandas documents for the stable
    sort kind).
Amounts are modelled as rationals: every value `float()` accepts in the
decimal fragment used by this program is a decimal fraction, and the claims
compare amounts numerically.
-/

/-- A parsed transaction record: one data row of `transactions.csv`
(schema `Date, Category, Amount, Description`, main.py line 32), with the
amount already converted by `float` as in `view_transactions`
(main.py line 138). -/
structure Txn where
  date : String
  category : String
  amount : ℚ
  description : String
deriving DecidableEq

/-- A raw persisted CSV data row: all four fields as stored text
(`csv.DictReader` yields strings, main.py lines 122-124). -/
structure RawRow where
  date : String
  category : String
  amountStr : String
  description : String
deriving DecidableEq

/-! ### Python string order

Python compares strings lexicographically by Unicode code point; pandas uses
this order for the group keys of `groupby('Category')` (`sort=True` default).
-/

/-- Strict lexicographic order on char lists by code point, as Python
compares strings. -/
def strLtB : List Char → List Char → Bool
  | [], [] => false
  | [], _ :: _ => true
  | _ :: _, [] => false
  | a :: as, b :: bs =>
    if a.toNat < b.toNat then true
    else if b.toNat < a.toNat then false
    else strLtB as bs

/-- Python `a < b` on strings. -/
def strLt (a b : String) : Bool := strLtB a.data b.data

/-- Python `a <= b` on strings (total order; the comparator of the
ascending key sort performed by `groupby`). -/
def strLe (a b : String) : Bool := !(strLt b a)

theorem charToNat_inj {c₁ c₂ : Char} (h : c₁.toNat = c₂.toNat) : c₁ = c₂ :=
  Char.eq_of_val_eq (UInt32.ext h)

theorem strLtB_irrefl : ∀ as, strLtB as as = false := by
  intro as
  induction as with
  | nil => rfl
  | cons a as ih => simp [strLtB, ih]

theorem strLtB_trichotomy :
    ∀ as bs, strLtB as bs = true ∨ as = bs ∨ strLtB bs as = true := by
  intro as
  induction as with
  | nil =>
    intro bs
    cases bs with
    | nil => exact Or.inr (Or.inl rfl)
    | cons b bs => exact Or.inl rfl
  | cons a as ih =>
    intro bs
    cases bs with
    | nil => exact Or.inr (Or.inr rfl)
    | cons b bs =>
      rcases Nat.lt_trichotomy a.toNat b.toNat with h | h | h
      · left; simp [strLtB, h]
      · have hab : a = b := charToNat_inj h
        subst hab
        rcases ih bs with h' | h' | h'
        · left; simp [strLtB, h']
        · right; left; rw [h']
        · right; right; simp [strLtB, h']
      · right; right; simp [strLtB, h]

theorem strLtB_trans :
    ∀ as bs cs, strLtB as bs = true → strLtB bs cs = true → strLtB as cs = true := by
  intro as
  induction as with
  | nil =>
    intro bs cs h₁ h₂
    cases bs with
    | nil => exact h₂
    | cons b bs =>
      cases cs with
      | nil => simp [strLtB] at h₂
      | cons c cs => rfl
  | cons a as ih =>
    intro bs cs h₁ h₂
    cases bs with
    | nil => simp [strLtB] at h₁
    | cons b bs =>
      cases cs with
      | nil => simp [strLtB] at h₂
      | cons c cs =>
        simp only [strLtB] at h₁ h₂ ⊢
        by_cases hab : a.toNat < b.toNat
        · by_cases hbc : b.toNat < c.toNat
          · rw [if_pos (Nat.lt_trans hab hbc)]
          · by_cases hcb : c.toNat < b.toNat
            · rw [if_neg hbc, if_pos hcb] at h₂
              simp at h₂
            · have hbceq : b.toNat = c.toNat :=
                Nat.le_antisymm (Nat.le_of_not_lt hcb) (Nat.le_of_not_lt hbc)
              rw [if_pos (hbceq ▸ hab)]
        · by_cases hba : b.toNat < a.toNat
          · rw [if_neg hab, if_pos hba] at h₁
            simp at h₁
          · have hab' : a = b :=
              charToNat_inj (Nat.le_antisymm (Nat.le_of_not_lt hba) (Nat.le_of_not_lt hab))
            subst hab'
            rw [if_neg hab, if_neg hba] at h₁
            by_cases hac : a.toNat < c.toNat
            · rw [if_pos hac]
            · by_cases hca : c.toNat < a.toNat
              · rw [if_neg hac, if_pos hca] at h₂
                simp at h₂
              · rw [if_neg hac, if_neg hca] at h₂ ⊢
                exact ih bs cs h₁ h₂

theorem strLtB_asymm {as bs : List Char} (h₁ : strLtB as bs = true)
    (h₂ : strLtB bs as = true) : False := by
  have := strLtB_trans _ _ _ h₁ h₂
  rw [strLtB_irrefl] at this
  exact Bool.false_ne_true this

theorem strLe_total (a b : String) : strLe a b = true ∨ strLe b a = true := by
  unfold strLe strLt
  by_cases h : strLtB b.data a.data = true
  · right
    have : strLtB a.data b.data = false := by
      cases hx : strLtB a.data b.data with
      | false => rfl
      | true => exact absurd (strLtB_asymm hx h) (fun f => f)
    simp [this]
  · left
    simp [Bool.of_not_eq_true h]

theorem strLe_trans {a b c : String} (h₁ : strLe a b = true) (h₂ : strLe b c = true) :
    strLe a c = true := by
  unfold strLe strLt at h₁ h₂ ⊢
  rw [Bool.not_eq_true'] at h₁ h₂ ⊢
  cases hca : strLtB c.data a.data with
  | false => rfl
  | true =>
    exfalso
    rcases strLtB_trichotomy a.data b.data with hab | hab | hab
    · have := strLtB_trans _ _ _ hca hab
      rw [this] at h₂
      exact Bool.noConfusion h₂
    · rw [← hab] at h₂
      rw [hca] at h₂
      exact Bool.noConfusion h₂
    · rw [hab] at h₁
      exact Bool.noConfusion h₁

/-! ### Stable insertion sort

A structural stable sort used to model the two sorting steps of the pandas
pipeline: the ascending key sort of `groupby` and the ascending argsort
inside `sort_values`.  An element is inserted before the first element it
compares `le` to, so elements that compare equal keep their input order. -/

/-- Insert `a` into `l` before the first element `b` with `le a b`. -/
def insertLe {α : Type} (le : α → α → Bool) (a : α) : List α → List α
  | [] => [a]
  | b :: bs => if le a b then a :: b :: bs else b :: insertLe le a bs

/-- Stable insertion sort by the Boolean comparator `le`. -/
def sortLe {α : Type} (le : α → α → Bool) : List α → List α
  | [] => []
  | a :: as => insertLe le a (sortLe le as)

theorem perm_insertLe {α : Type} (le : α → α → Bool) (a : α) :
    ∀ l : List α, (insertLe le a l).Perm (a :: l) := by
  intro l
  induction l with
  | nil => exact List.Perm.refl _
  | cons b bs ih =>
    by_cases h : le a b = true
    · simp [insertLe, h]
    · rw [insertLe, if_neg h]
      exact (ih.cons b).trans (List.Perm.swap a b bs)

theorem perm_sortLe {α : Type} (le : α → α → Bool) :
    ∀ l : List α, (sortLe le l).Perm l := by
  intro l
  induction l with
  | nil => exact List.Perm.refl _
  | cons a as ih =>
    exact (perm_insertLe le a (sortLe le as)).trans (ih.cons a)

theorem mem_insertLe {α : Type} {le : α → α → Bool} {a x : α} {l : List α} :
    x ∈ insertLe le a l ↔ x = a ∨ x ∈ l := by
  rw [(perm_insertLe le a l).mem_iff]
  simp

theorem pairwise_insertLe {α : Type} {le : α → α → Bool}
    (htot : ∀ a b, le a b = true ∨ le b a = true)
    (htr : ∀ a b c, le a b = true → le b c = true → le a c = true)
    {a : α} {l : List α} (hl : l.Pairwise (fun x y => le x y = true)) :
    (insertLe le a l).Pairwise (fun x y => le x y = true) := by
  induction l with
  | nil => simp [insertLe]
  | cons b bs ih =>
    rcases List.pairwise_cons.mp hl with ⟨hb, hbs⟩
    by_cases h : le a b = true
    · rw [insertLe, if_pos h]
      refine List.pairwise_cons.mpr ⟨?_, hl⟩
      intro x hx
      rcases List.mem_cons.mp hx with hx | hx
      · subst hx
        exact h
      · exact htr a b x h (hb x hx)
    · rw [insertLe, if_neg h]
      refine List.pairwise_cons.mpr ⟨?_, ih hbs⟩
      intro x hx
      rcases mem_insertLe.mp hx with hx | hx
      · rw [hx]
        rcases htot a b with h' | h'
        · exact absurd h' h
        · exact h'
      · exact hb x hx

theorem pairwise_sortLe {α : Type} {le : α → α → Bool}
    (htot : ∀ a b, le a b = true ∨ le b a = true)
    (htr : ∀ a b c, le a b = true → le b c = true → le a c = true)
    (l : List α) : (sortLe le l).Pairwise (fun x y => le x y = true) := by
  induction l with
  | nil => simp [sortLe]
  | cons a as ih => exact pairwise_insertLe htot htr ih

/-! ### The Aggregator (spending_summary / ai_advisor, main.py lines 180-205, 305-309) -/

/-- The category column of the loaded frame (`df['Category']`). -/
def cats (records : List Txn) : List String := records.map (·.category)

/-- `df['Amount'].sum()` (main.py line 180): total of all amounts;
`0` for the empty frame. -/
def totalSpending (records : List Txn) : ℚ := (records.map (·.amount)).sum

/-- The summed amount of one category group of `groupby('Category')`:
the sum of the amounts of the records in that category. -/
def catSum (records : List Txn) (c : String) : ℚ :=
  totalSpending (records.filter (fun r => r.category == c))

/-- First-occurrence deduplication (the distinct group keys, in the order
the categories first appear in the frame). -/
def uniqueCatsAux (seen : List String) : List String → List String
  | [] => []
  | c :: rest =>
    if seen.contains c then uniqueCatsAux seen rest
    else c :: uniqueCatsAux (c :: seen) rest

/-- The distinct categories of the record sequence, first occurrence first. -/
def uniqueCats (l : List String) : List String := uniqueCatsAux [] l

theorem mem_uniqueCatsAux {x : String} :
    ∀ (l seen : List String), x ∈ uniqueCatsAux seen l ↔ x ∈ l ∧ x ∉ seen := by
  intro l
  induction l with
  | nil => intro seen; simp [uniqueCatsAux]
  | cons c rest ih =>
    intro seen
    by_cases h : seen.contains c
    · have hc : c ∈ seen := by simpa using h
      rw [uniqueCatsAux, if_pos h, ih seen]
      constructor
      · rintro ⟨hx, hs⟩
        exact ⟨List.mem_cons_of_mem c hx, hs⟩
      · rintro ⟨hx, hs⟩
        rcases List.mem_cons.mp hx with hx | hx
        · subst hx
          exact absurd hc hs
        · exact ⟨hx, hs⟩
    · have hc : c ∉ seen := by simpa using h
      rw [uniqueCatsAux, if_neg h]
      constructor
      · intro hmem
        rcases List.mem_cons.mp hmem with hx | hx
        · subst hx
          exact ⟨List.mem_cons_self x rest, hc⟩
        · rcases (ih (c :: seen)).mp hx with ⟨h1, h2⟩
          exact ⟨List.mem_cons_of_mem c h1, fun hm => h2 (List.mem_cons_of_mem c hm)⟩
      · rintro ⟨hx, hs⟩
        rcases List.mem_cons.mp hx with hx | hx
        · subst hx
          exact List.mem_cons_self x _
        · by_cases hxc : x = c
          · subst hxc
            exact List.mem_cons_self x _
          · refine List.mem_cons_of_mem c ((ih (c :: seen)).mpr ⟨hx, ?_⟩)
            intro hm
            rcases List.mem_cons.mp hm with hm | hm
            · exact hxc hm
            · exact hs hm

theorem nodup_uniqueCatsAux :
    ∀ (l seen : List String), (uniqueCatsAux seen l).Nodup := by
  intro l
  induction l with
  | nil => intro seen; simp [uniqueCatsAux]
  | cons c rest ih =>
    intro seen
    by_cases h : seen.contains c
    · rw [uniqueCatsAux, if_pos h]
      exact ih seen
    · rw [uniqueCatsAux, if_neg h]
      refine List.nodup_cons.mpr ⟨?_, ih (c :: seen)⟩
      intro hmem
      exact ((mem_uniqueCatsAux rest (c :: seen)).mp hmem).2 (List.mem_cons_self c seen)

theorem mem_uniqueCats {x : String} {l : List String} : x ∈ uniqueCats l ↔ x ∈ l := by
  rw [uniqueCats, mem_uniqueCatsAux]
  simp

theorem nodup_uniqueCats (l : List String) : (uniqueCats l).Nodup :=
  nodup_uniqueCatsAux l []

/-- The group keys of `df.groupby('Category')`, sorted ascending by the
Python string order (the `sort=True` default). -/
def sortedCats (records : List Txn) : List String :=
  sortLe strLe (uniqueCats (cats records))

/-- `df.groupby('Category')['Amount'].sum()` (main.py lines 183, 237, 305):
one `(category, summed amount)` entry per distinct category, keys sorted
ascending by category name. -/
def groupbySum (records : List Txn) : List (String × ℚ) :=
  (sortedCats records).map (fun c => (c, catSum records c))

/-- Comparator of the ascending argsort inside `sort_values`: by value,
with the original position as the stable tie-breaker. -/
def pairLe (x y : ℕ × (String × ℚ)) : Bool :=
  decide (x.2.2 < y.2.2) || (decide (x.2.2 = y.2.2) && decide (x.1 ≤ y.1))

/-- `series.sort_values(ascending=False)` (main.py lines 183, 305): pandas
argsorts the values ascending (stably, see the header comment) and then
reverses the indexer, so the whole ascending order — including the relative
order of equal values — is reversed. -/
def sortValuesDesc (l : List (String × ℚ)) : List (String × ℚ) :=
  ((sortLe pairLe l.enum).map Prod.snd).reverse

/-- `categoryTotals` of the spec:
`df.groupby('Category')['Amount'].sum().sort_values(ascending=False)`
(main.py line 183 in `spending_summary`, line 305 in `ai_advisor`). -/
def categoryTotals (records : List Txn) : List (String × ℚ) :=
  sortValuesDesc (groupbySum records)

/-- `topCategory` of the spec: `category_summary.index[0]` when the summary
is non-empty, `"N/A"` otherwise (main.py line 189, line 306). -/
def topCategory (records : List Txn) : String :=
  match categoryTotals records with
  | [] => "N/A"
  | p :: _ => p.1

/-- `percentageOfTotal` of the spec: `(amount / total_spending) * 100`
(main.py lines 204, 309). -/
def percentageOfTotal (amount total : ℚ) : ℚ := amount / total * 100

/-- `df['Amount'].mean()` (main.py line 186). -/
def averageTransaction (records : List Txn) : ℚ :=
  totalSpending records / records.length

/-- Modelled from the spec's words, for comparison with `categoryTotals`:
"sum grouped by category, sorted descending by summed amount; ties broken by
first-encountered category order (stable grouping then stable sort)" — a
stable descending sort of the first-encounter-ordered per-category sums. -/
def specCategoryTotals (records : List Txn) : List (String × ℚ) :=
  sortLe (fun p q => decide (q.2 ≤ p.2))
    ((uniqueCats (cats records)).map (fun c => (c, catSum records c)))

/-! ### The Advisor (ai_advisor, main.py lines 319-372) -/

/-- The `tips` dictionary of `ai_advisor` (main.py lines 319-356):
exact-match lookup from a category name to its four static tips. -/
def tipsTable (c : String) : Option (List String) :=
  if c = "Food" then some [
    "🍳 Cook at home more often - can save up to 60% compared to eating out",
    "📝 Plan your meals weekly to reduce impulse purchases",
    "🛒 Buy groceries in bulk for non-perishable items",
    "💧 Drink water instead of beverages when dining out"]
  else if c = "Transport" then some [
    "🚌 Consider public transport or carpooling to reduce costs",
    "🚴 Use bike or walk for short distances - good for health too!",
    "⛽ Maintain your vehicle regularly to improve fuel efficiency",
    "📱 Use ride-sharing apps to compare prices before booking"]
  else if c = "Shopping" then some [
    "🛍️ Wait 24 hours before making non-essential purchases",
    "💳 Use cashback and rewards programs",
    "🏷️ Compare prices online before buying",
    "📅 Shop during sales and use discount codes"]
  else if c = "Entertainment" then some [
    "📺 Consider sharing streaming subscriptions with family",
    "🎮 Look for free or low-cost entertainment alternatives",
    "🎟️ Use student/senior discounts if applicable",
    "🏠 Host game nights at home instead of going out"]
  else if c = "Bills" then some [
    "💡 Switch to energy-efficient appliances to lower electricity bills",
    "📞 Review and negotiate your subscription services annually",
    "🌡️ Adjust thermostat settings to save on heating/cooling",
    "📊 Track usage patterns to identify saving opportunities"]
  else if c = "Healthcare" then some [
    "💊 Ask for generic medications when possible",
    "🏥 Use preventive care to avoid costly treatments",
    "💰 Check if your insurance covers wellness programs",
    "🔍 Compare prices at different pharmacies"]
  else none

/-- The generic fallback list of `tips.get(top_category, [...])`
(main.py lines 359-364). -/
def genericTips : List String := [
  "📊 Track your expenses regularly to identify patterns",
  "💰 Set a monthly budget for this category",
  "🎯 Try to reduce spending by 10-15% next month",
  "📱 Use apps to find better deals and discounts"]

/-- The three general-advice lines printed after the category tips
(main.py lines 370-372). -/
def generalAdvice : List String := [
  "• Follow the 50/30/20 rule: 50% needs, 30% wants, 20% savings",
  "• Build an emergency fund (3-6 months of expenses)",
  "• Review your spending weekly to stay on track"]

/-- `category_tips = tips.get(top_category, generic)` (main.py line 359). -/
def category_tips (c : String) : List String := (tipsTable c).getD genericTips

/-- The full advice output for a top category: the category tips followed by
the general-advice block (main.py lines 366-372). -/
def adviseOutput (c : String) : List String := category_tips c ++ generalAdvice

/-- The categories suggested by the add-transaction prompt
(main.py line 77). -/
def suggestedCategories : List String :=
  ["Food", "Transport", "Shopping", "Entertainment", "Bills", "Healthcare", "Other"]

/-- Category defaulting on the add path: empty input becomes `"Other"`
(main.py lines 78-80; the input is already stripped). -/
def defaultCategory (input : String) : String :=
  if input = "" then "Other" else input

/-! ### Python float parsing and printing (decimal fragment)

`add_transaction` converts the typed amount with `float(amount_input)`
(main.py line 86) and `view_transactions` converts the stored field back
with `float(transaction['Amount'])` (main.py line 138).  The model covers
the decimal fragment of `float()` — an optional sign, an integer part and
an optional fractional part — which is the fragment this program writes and
the spec talks about; exponents, `inf`/`nan` and underscores are omitted.
-/

/-- Split a char list at the first `'.'`; the second component tells whether
a dot was present. -/
def splitAtDot : List Char → List Char × Option (List Char)
  | [] => ([], none)
  | c :: rest =>
    if c = '.' then ([], some rest)
    else
      let p := splitAtDot rest
      (c :: p.1, p.2)

/-- The numeric value of a digit string (most significant digit first). -/
def digitsToNat (cs : List Char) : ℕ :=
  cs.foldl (fun a c => 10 * a + (c.toNat - 48)) 0

/-- Parse an unsigned decimal: digits, optionally with one dot somewhere
(`"12"`, `"12.5"`, `"12."`, `".5"`; rejects `""`, `"."`, `"1.2.3"`,
non-digits). -/
def parseUnsigned (cs : List Char) : Option ℚ :=
  let p := splitAtDot cs
  match p.2 with
  | none =>
    if !cs.isEmpty && cs.all Char.isDigit then some (digitsToNat cs) else none
  | some fp =>
    if !(p.1 ++ fp).isEmpty && (p.1 ++ fp).all Char.isDigit then
      some ((digitsToNat p.1 : ℚ) + (digitsToNat fp : ℚ) / 10 ^ fp.length)
    else none

/-- The decimal fragment of Python `float()` on an already-stripped string:
optional sign, then an unsigned decimal; `none` models `ValueError`.  This
fragment is exact for the store-read path, whose well-formed rows are the
plain decimals this program itself writes (`serializeDecimal`); the full
input-side grammar of `float()` — `inf`/`nan`, exponents, underscores — is
modelled separately by `parsePyFloat` below and drives the amount
validation. -/
def parseFloat (s : String) : Option ℚ :=
  match s.data with
  | [] => none
  | c :: rest =>
    if c = '-' then (parseUnsigned rest).map (fun q => -q)
    else if c = '+' then parseUnsigned rest
    else parseUnsigned (c :: rest)

/-- Little-endian digit chars of `n`, with enough fuel (`natDigitsRev n n`
is the full digit list; empty for `n = 0`). -/
def natDigitsRev (fuel n : ℕ) : List Char :=
  match fuel with
  | 0 => []
  | fuel + 1 => if n = 0 then [] else Char.ofNat (48 + n % 10) :: natDigitsRev fuel (n / 10)

/-- Decimal rendering of a natural number. -/
def natToStr (n : ℕ) : List Char :=
  if n = 0 then ['0'] else (natDigitsRev n n).reverse

/-- Left-pad a digit string with zeros to length `k`. -/
def padZeros (k : ℕ) (cs : List Char) : List Char :=
  List.replicate (k - cs.length) '0' ++ cs

/-- Python `str()` of the non-negative float `n / 10^k`, as written to the
CSV by `csv.writer.writerow` (main.py line 102): integer part, a dot, and
`k` fractional digits (`str(10.5)` is `"10.5"`, `str(5.0)` is `"5.0"`;
trailing-zero trimming is omitted — the claims compare amounts
numerically). -/
def serializeDecimal (n k : ℕ) : String :=
  ⟨natToStr (n / 10 ^ k) ++ '.' :: padZeros k (natToStr (n % 10 ^ k))⟩

/-- The rational value of the decimal numeral `n / 10^k`. -/
def decVal (n k : ℕ) : ℚ := (n : ℚ) / 10 ^ k

/-! ### The Record Store (CSV file) -/

/-- Parse one stored row into a record, converting the amount with `float`
as `view_transactions` does (main.py line 138); a row whose amount does not
parse raises — modelled as `Except.error` carrying the offending field. -/
def parseRow (row : RawRow) : Except String Txn :=
  match parseFloat row.amountStr with
  | some q => .ok ⟨row.date, row.category, q, row.description⟩
  | none => .error row.amountStr

/-- `readAll` of the spec: read and parse every stored row in order
(main.py lines 122-124 plus the per-row `float` conversion); the first
malformed row aborts the whole read with its error. -/
def readAll : List RawRow → Except String (List Txn)
  | [] => .ok []
  | row :: rest =>
    match parseRow row with
    | .error e => .error e
    | .ok t =>
      match readAll rest with
      | .error e => .error e
      | .ok ts => .ok (t :: ts)

/-- `append` of the spec: `add_transaction` writes one row at the end of the
file (main.py lines 100-102), rendering the parsed amount `n / 10^k` back to
text with `str()`. -/
def appendTxn (store : List RawRow) (date cat : String) (n k : ℕ) (desc : String) :
    List RawRow :=
  store ++ [⟨date, cat, serializeDecimal n k, desc⟩]

/-! ### The Session Controller (add_transaction validation and main loop) -/

/-!
`add_transaction` validates the typed amount with `float(amount_input)`
(main.py line 86).  Unlike the rows this program itself writes (plain
decimals, covered by `parseFloat` above), the prompt accepts the whole
`float()` grammar: optional sign; the words `inf`/`infinity`/`nan`
(case-insensitive); decimals with an optional exponent; underscores between
digits.  NaN and the infinities matter here because the guard at line 87 is
`amount <= 0`, and every IEEE comparison with NaN is false.
-/

/-- A Python float value as far as this program observes it: a finite value
(idealized as an exact rational), one of the two infinities, or NaN. -/
inductive PyFloat where
  | num (q : ℚ)
  | inf
  | negInf
  | nan
deriving DecidableEq

/-- IEEE `x <= 0` — the guard `amount <= 0` of the amount loop (main.py
line 87): every comparison with NaN is false. -/
def pyLeZero : PyFloat → Bool
  | .num q => decide (q ≤ 0)
  | .inf => false
  | .negInf => true
  | .nan => false

/-- Negation of a float value (the leading `-` sign of `float()`);
`float()` of a negated NaN is still NaN. -/
def pyNeg : PyFloat → PyFloat
  | .num q => .num (-q)
  | .inf => .negInf
  | .negInf => .inf
  | .nan => .nan

/-- Whether a float value is an actual finite number (not NaN, not an
infinity). -/
def pyIsNum : PyFloat → Bool
  | .num _ => true
  | .inf => false
  | .negInf => false
  | .nan => false

/-- Whether the character before an underscore is a digit (`none` at the
start of the string). -/
def prevDigit : Option Char → Bool
  | some p => p.isDigit
  | none => false

/-- Whether the character after an underscore is a digit (there must be
one). -/
def headDigit : List Char → Bool
  | d :: _ => d.isDigit
  | [] => false

/-- CPython digit grouping: every underscore must sit directly between two
digits.  `prev` is the preceding character (`none` at the start). -/
def underscoresOkAux (prev : Option Char) : List Char → Bool
  | [] => true
  | c :: rest =>
    if c = '_' then prevDigit prev && headDigit rest && underscoresOkAux (some c) rest
    else underscoresOkAux (some c) rest

/-- Digit-grouping check for the whole string. -/
def underscoresOk (cs : List Char) : Bool := underscoresOkAux none cs

/-- Split a char list at the first `e`/`E` (the exponent marker). -/
def splitAtExp : List Char → List Char × Option (List Char)
  | [] => ([], none)
  | c :: rest =>
    if c = 'e' ∨ c = 'E' then ([], some rest)
    else
      let p := splitAtExp rest
      (c :: p.1, p.2)

/-- A non-empty all-digit exponent body. -/
def parseExpDigits (cs : List Char) : Option ℕ :=
  if !cs.isEmpty && cs.all Char.isDigit then some (digitsToNat cs) else none

/-- The exponent after `e`/`E`: an optional sign, then digits. -/
def parseExp : List Char → Option ℤ
  | [] => none
  | c :: rest =>
    if c = '-' then (parseExpDigits rest).map (fun n => -(n : ℤ))
    else if c = '+' then (parseExpDigits rest).map (fun n => (n : ℤ))
    else (parseExpDigits (c :: rest)).map (fun n => (n : ℤ))

/-- Unsigned decimal with an optional exponent:
`mantissa * 10 ^ exponent`. -/
def parseDecimalExp (cs : List Char) : Option ℚ :=
  let p := splitAtExp cs
  match p.2 with
  | none => parseUnsigned p.1
  | some ecs =>
    match parseUnsigned p.1, parseExp ecs with
    | some m, some e => some (m * 10 ^ e)
    | _, _ => none

/-- Unsigned part of full `float()`: the words `inf`/`infinity`/`nan`
(case-insensitive), or — digit grouping permitting — a decimal with an
optional exponent, underscores removed. -/
def parsePyUnsigned (cs : List Char) : Option PyFloat :=
  let low := cs.map Char.toLower
  if low = ['i', 'n', 'f'] ∨ low = ['i', 'n', 'f', 'i', 'n', 'i', 't', 'y'] then
    some .inf
  else if low = ['n', 'a', 'n'] then some .nan
  else if underscoresOk cs then
    (parseDecimalExp (cs.filter (fun c => c ≠ '_'))).map PyFloat.num
  else none

/-- Python `float()` on an already-stripped string, full grammar: an
optional sign, then the unsigned part; `none` models `ValueError`. -/
def parsePyFloat (s : String) : Option PyFloat :=
  match s.data with
  | [] => none
  | c :: rest =>
    if c = '-' then (parsePyUnsigned rest).map pyNeg
    else if c = '+' then parsePyUnsigned rest
    else parsePyUnsigned (c :: rest)

/-- One round of the amount prompt (main.py lines 84-92): `float` the input;
on `ValueError` the input is rejected (the loop re-prompts), and a parsed
value is rejected exactly when `amount <= 0` — so NaN, for which that
comparison is false, is accepted. -/
def validateAmount (s : String) : Option PyFloat :=
  match parsePyFloat s with
  | none => none
  | some a => if pyLeZero a then none else some a

/-- The `while True` amount loop (main.py lines 83-92) over the successive
user inputs: the first accepted value is returned (and then written to the
store); if no input is accepted the loop keeps prompting and no record is
produced. -/
def amountLoop : List String → Option PyFloat
  | [] => none
  | s :: rest =>
    match validateAmount s with
    | some a => some a
    | none => amountLoop rest

/-- Result of dispatching one menu choice in `main` (main.py lines 410-434):
either control returns to the menu loop, or an uncaught exception has
propagated out of the handler — and out of `main`, terminating the
process, since no `try`/`except` surrounds the dispatch. -/
inductive ActionResult where
  | menu (store : List RawRow)
  | crash (msg : String)
deriving DecidableEq

/-- Menu choice 2, `view_transactions` (main.py lines 111-148, dispatched at
416-417): reads and parses all rows, then returns to the menu; a row whose
amount `float` rejects raises `ValueError`, which no enclosing handler
catches. -/
def runView (store : List RawRow) : ActionResult :=
  match readAll store with
  | .ok _ => .menu store
  | .error e => .crash e

/-- A scripted menu action of one session: an add with its (already
validated) inputs, or one of the read-only actions. -/
inductive MenuAction where
  | add (date cat : String) (n k : ℕ) (desc : String)
  | view
  | summary
  | visualize
  | advise
  | badChoice

/-- Store effect of one menu action (main.py lines 410-434): choice 1 opens
the file in append mode and writes one row (lines 100-102); choices 2-5 open
the file in read mode only (lines 122, 169, 227, 295) and an invalid choice
only prints — none of them writes. -/
def applyMenuAction (store : List RawRow) : MenuAction → List RawRow
  | .add date cat n k desc => appendTxn store date cat n k desc
  | .view => store
  | .summary => store
  | .visualize => store
  | .advise => store
  | .badChoice => store

/-- The `while True` menu loop of `main` over a script of actions. -/
def runSession (store : List RawRow) : List MenuAction → List RawRow
  | [] => store
  | a :: rest => runSession (applyMenuAction store a) rest

/-! ### Digit lemmas and the parse/print round trip -/

theorem digitsToNat_append_digit (xs : List Char) (c : Char) :
    digitsToNat (xs ++ [c]) = 10 * digitsToNat xs + (c.toNat - 48) := by
  simp [digitsToNat, List.foldl_append]

theorem digitChar_toNat {d : ℕ} (h : d < 10) : (Char.ofNat (48 + d)).toNat = 48 + d := by
  interval_cases d <;> decide

theorem digitChar_isDigit {d : ℕ} (h : d < 10) : (Char.ofNat (48 + d)).isDigit = true := by
  interval_cases d <;> decide

theorem natDigitsRev_zero (fuel : ℕ) : natDigitsRev fuel 0 = [] := by
  cases fuel <;> simp [natDigitsRev]

theorem natDigitsRev_correct :
    ∀ fuel n, n ≤ fuel → digitsToNat ((natDigitsRev fuel n).reverse) = n := by
  intro fuel
  induction fuel with
  | zero =>
    intro n hn
    interval_cases n
    simp [natDigitsRev, digitsToNat]
  | succ fuel ih =>
    intro n hn
    by_cases hz : n = 0
    · subst hz
      simp [natDigitsRev, digitsToNat]
    · rw [natDigitsRev, if_neg hz]
      rw [List.reverse_cons, digitsToNat_append_digit]
      have hdiv : n / 10 ≤ fuel :=
        Nat.le_of_lt_succ (Nat.lt_of_lt_of_le (Nat.div_lt_self (Nat.pos_of_ne_zero hz) (by omega)) hn)
      rw [ih (n / 10) hdiv, digitChar_toNat (Nat.mod_lt n (by omega))]
      omega

theorem natDigitsRev_digits :
    ∀ fuel n, (natDigitsRev fuel n).all Char.isDigit = true := by
  intro fuel
  induction fuel with
  | zero => intro n; rfl
  | succ fuel ih =>
    intro n
    by_cases hz : n = 0
    · subst hz; rfl
    · rw [natDigitsRev, if_neg hz, List.all_cons,
        digitChar_isDigit (Nat.mod_lt n (by omega)), ih (n / 10)]
      rfl

theorem natDigitsRev_length :
    ∀ fuel n k, n < 10 ^ k → (natDigitsRev fuel n).length ≤ k := by
  intro fuel
  induction fuel with
  | zero => intro n k _; simp [natDigitsRev]
  | succ fuel ih =>
    intro n k hk
    by_cases hz : n = 0
    · subst hz; simp [natDigitsRev]
    · rw [natDigitsRev, if_neg hz]
      cases k with
      | zero =>
        simp at hk
        omega
      | succ k =>
        have : n / 10 < 10 ^ k := by
          rw [Nat.div_lt_iff_lt_mul (by omega : (0:ℕ) < 10)]
          calc n < 10 ^ (k + 1) := hk
          _ = 10 ^ k * 10 := by ring
        simpa using Nat.succ_le_succ (ih (n / 10) k this)

theorem natToStr_correct (n : ℕ) : digitsToNat (natToStr n) = n := by
  by_cases hz : n = 0
  · subst hz; rfl
  · rw [natToStr, if_neg hz]
    exact natDigitsRev_correct n n le_rfl

theorem natToStr_digits (n : ℕ) : (natToStr n).all Char.isDigit = true := by
  by_cases hz : n = 0
  · subst hz; rfl
  · rw [natToStr, if_neg hz, List.all_reverse]
    exact natDigitsRev_digits n n

theorem natToStr_ne_nil (n : ℕ) : natToStr n ≠ [] := by
  by_cases hz : n = 0
  · subst hz; simp [natToStr]
  · rw [natToStr, if_neg hz]
    intro h
    have := natDigitsRev_correct n n le_rfl
    rw [h] at this
    simp [digitsToNat] at this
    exact hz this.symm

theorem natToStr_length_le {n k : ℕ} (hn : n < 10 ^ k) (hk : 0 < k) :
    (natToStr n).length ≤ k := by
  by_cases hz : n = 0
  · subst hz; simpa [natToStr] using hk
  · rw [natToStr, if_neg hz, List.length_reverse]
    exact natDigitsRev_length n n k hn

theorem digitsToNat_replicate_zero (m : ℕ) :
    List.foldl (fun a c => 10 * a + (c.toNat - 48)) 0 (List.replicate m '0') = 0 := by
  induction m with
  | zero => rfl
  | succ m ih => simpa [List.replicate_succ]

theorem digitsToNat_padZeros (k : ℕ) (cs : List Char) :
    digitsToNat (padZeros k cs) = digitsToNat cs := by
  rw [padZeros, digitsToNat, List.foldl_append, digitsToNat_replicate_zero, digitsToNat]

theorem padZeros_length {k : ℕ} {cs : List Char} (h : cs.length ≤ k) :
    (padZeros k cs).length = k := by
  simp [padZeros]
  omega

theorem padZeros_all_digits {k : ℕ} {cs : List Char} (h : cs.all Char.isDigit = true) :
    (padZeros k cs).all Char.isDigit = true := by
  rw [padZeros, List.all_append, h]
  have : (List.replicate (k - cs.length) '0').all Char.isDigit = true := by
    rw [List.all_eq_true]
    intro c hc
    rw [List.eq_of_mem_replicate hc]
    decide
  rw [this]
  rfl

theorem isDigit_ne_special {c : Char} (h : c.isDigit = true) :
    c ≠ '.' ∧ c ≠ '-' ∧ c ≠ '+' := by
  refine ⟨?_, ?_, ?_⟩ <;> rintro rfl <;> exact absurd h (by decide)

theorem dot_not_mem_digits {cs : List Char} (h : cs.all Char.isDigit = true) :
    '.' ∉ cs := by
  intro hmem
  rw [List.all_eq_true] at h
  exact absurd (h _ hmem) (by decide)

theorem splitAtDot_append (ip fp : List Char) (h : '.' ∉ ip) :
    splitAtDot (ip ++ '.' :: fp) = (ip, some fp) := by
  induction ip with
  | nil => rfl
  | cons c ip ih =>
    have hc : c ≠ '.' := fun hcon => h (hcon ▸ List.mem_cons_self c ip)
    rw [List.cons_append, splitAtDot, if_neg hc,
      ih (fun hmem => h (List.mem_cons_of_mem c hmem))]

theorem decVal_split (n k : ℕ) :
    ((n / 10 ^ k : ℕ) : ℚ) + ((n % 10 ^ k : ℕ) : ℚ) / 10 ^ k = decVal n k := by
  rw [decVal]
  have h10 : ((10 : ℚ)) ^ k ≠ 0 := by positivity
  field_simp
  have := Nat.div_add_mod n (10 ^ k)
  have hcast : ((10 : ℚ)) ^ k * ((n / 10 ^ k : ℕ) : ℚ) + ((n % 10 ^ k : ℕ) : ℚ) = (n : ℚ) := by
    exact_mod_cast congrArg (fun m : ℕ => (m : ℚ)) this
  linarith

theorem parseUnsigned_of_digits {ip fp : List Char}
    (hip : ip.all Char.isDigit = true) (hfp : fp.all Char.isDigit = true)
    (hne : ip ≠ []) :
    parseUnsigned (ip ++ '.' :: fp) =
      some ((digitsToNat ip : ℚ) + (digitsToNat fp : ℚ) / 10 ^ fp.length) := by
  rw [parseUnsigned]
  have hsplit := splitAtDot_append ip fp (dot_not_mem_digits hip)
  simp only [hsplit]
  have hcond : (!(ip ++ fp).isEmpty && (ip ++ fp).all Char.isDigit) = true := by
    rw [List.all_append, hip, hfp]
    cases ip with
    | nil => exact absurd rfl hne
    | cons c cs => rfl
  rw [if_pos hcond]

theorem parseUnsigned_serialize (n k : ℕ) :
    parseUnsigned (natToStr (n / 10 ^ k) ++ '.' :: padZeros k (natToStr (n % 10 ^ k))) =
      some (decVal n k) := by
  rw [parseUnsigned_of_digits (natToStr_digits _)
    (padZeros_all_digits (natToStr_digits _)) (natToStr_ne_nil _)]
  congr 1
  rw [natToStr_correct, digitsToNat_padZeros, natToStr_correct]
  by_cases hz : n % 10 ^ k = 0
  · rw [hz, ← decVal_split n k, hz]
    push_cast
    rw [zero_div, zero_div]
  · have hk : 0 < k := by
      rcases Nat.eq_zero_or_pos k with hk0 | hk0
      · subst hk0
        exact absurd (Nat.mod_one n) hz
      · exact hk0
    have hlen : (padZeros k (natToStr (n % 10 ^ k))).length = k :=
      padZeros_length (natToStr_length_le (Nat.mod_lt n (by positivity)) hk)
    rw [hlen, decVal_split n k]

theorem parseFloat_serializeDecimal (n k : ℕ) :
    parseFloat (serializeDecimal n k) = some (decVal n k) := by
  have hip_digits := natToStr_digits (n / 10 ^ k)
  obtain ⟨c, ip', hip⟩ : ∃ c ip', natToStr (n / 10 ^ k) = c :: ip' := by
    cases h : natToStr (n / 10 ^ k) with
    | nil => exact absurd h (natToStr_ne_nil _)
    | cons c ip' => exact ⟨c, ip', rfl⟩
  have hc : c.isDigit = true := by
    rw [hip, List.all_cons] at hip_digits
    exact (Bool.and_eq_true_iff.mp hip_digits).1
  obtain ⟨hcd, hcm, hcp⟩ := isDigit_ne_special hc
  have hdata : (serializeDecimal n k).data =
      c :: (ip' ++ '.' :: padZeros k (natToStr (n % 10 ^ k))) := by
    rw [serializeDecimal]
    rw [hip]
    rfl
  rw [parseFloat, hdata]
  show (if c = '-' then
      (parseUnsigned (ip' ++ '.' :: padZeros k (natToStr (n % 10 ^ k)))).map (fun q => -q)
    else if c = '+' then parseUnsigned (ip' ++ '.' :: padZeros k (natToStr (n % 10 ^ k)))
    else parseUnsigned (c :: (ip' ++ '.' :: padZeros k (natToStr (n % 10 ^ k))))) =
      some (decVal n k)
  rw [if_neg hcm, if_neg hcp]
  have hfold : c :: (ip' ++ '.' :: padZeros k (natToStr (n % 10 ^ k))) =
      natToStr (n / 10 ^ k) ++ '.' :: padZeros k (natToStr (n % 10 ^ k)) := by
    rw [hip]
    rfl
  rw [hfold]
  exact parseUnsigned_serialize n k

theorem readAll_append_ok :
    ∀ (store : List RawRow) (ts : List Txn), readAll store = .ok ts →
      ∀ (row : RawRow) (t : Txn), parseRow row = .ok t →
        readAll (store ++ [row]) = .ok (ts ++ [t]) := by
  intro store
  induction store with
  | nil =>
    intro ts h row t hrow
    have hts : ts = [] := by
      rw [readAll] at h
      exact (Except.ok.injEq _ _ ▸ congrArg id h).symm ▸ (Except.ok.inj h).symm
    subst hts
    simp [readAll, hrow]
  | cons r rest ih =>
    intro ts h row t hrow
    rw [List.cons_append, readAll]
    rw [readAll] at h
    cases hr : parseRow r with
    | error e =>
      rw [hr] at h
      exact absurd h (by simp)
    | ok t' =>
      rw [hr] at h
      cases hrest : readAll rest with
      | error e =>
        rw [hrest] at h
        exact absurd h (by simp)
      | ok ts' =>
        rw [hrest] at h
        have hts : ts = t' :: ts' := (Except.ok.inj h).symm
        subst hts
        rw [ih ts' hrest row t hrow]
        simp

/-- C6: appending a record and then reading all records yields exactly the
old parse result extended with the new record at the end: the prefix is
unchanged, the appended record is last, and its amount is the numeric value
`n / 10^k` that was written (numeric, not string, comparison). -/
theorem append_then_readAll (store : List RawRow) (ts : List Txn)
    (h : readAll store = .ok ts) (date cat desc : String) (n k : ℕ) :
    readAll (appendTxn store date cat n k desc) =
      .ok (ts ++ [Txn.mk date cat (decVal n k) desc]) := by
  rw [appendTxn]
  apply readAll_append_ok store ts h
  rw [parseRow]
  have : (RawRow.mk date cat (serializeDecimal n k) desc).amountStr =
      serializeDecimal n k := rfl
  rw [this, parseFloat_serializeDecimal]

/-- Witness for C6 at a concrete store and record: the empty store parses to
`[]`, and appending the `10.5`-amount record makes it the (only and last)
parsed record with its numeric amount. -/
theorem append_then_readAll_witness :
    readAll ([] : List RawRow) = .ok [] ∧
    readAll (appendTxn [] "2024-01-01" "Food" 105 1 "lunch") =
      .ok [Txn.mk "2024-01-01" "Food" (decVal 105 1) "lunch"] :=
  ⟨rfl, append_then_readAll [] [] rfl "2024-01-01" "Food" "lunch" 105 1⟩

theorem validateAmount_accepts_iff (s : String) (a : PyFloat) :
    validateAmount s = some a ↔ parsePyFloat s = some a ∧ pyLeZero a = false := by
  cases hp : parsePyFloat s with
  | none =>
    simp [validateAmount, hp]
  | some b =>
    rw [validateAmount, hp]
    show (if pyLeZero b then (none : Option PyFloat) else some b) = some a ↔
      some b = some a ∧ pyLeZero a = false
    cases hb : pyLeZero b with
    | true =>
      rw [if_pos rfl]
      constructor
      · intro h
        exact absurd h (by simp)
      · rintro ⟨h1, h2⟩
        have hba : b = a := Option.some.inj h1
        subst hba
        rw [hb] at h2
        exact absurd h2 (by simp)
    | false =>
      rw [if_neg Bool.false_ne_true]
      constructor
      · intro h
        have hba : b = a := Option.some.inj h
        subst hba
        exact ⟨rfl, hb⟩
      · rintro ⟨h1, _⟩
        exact h1

theorem validateAmount_num_pos {s : String} {q : ℚ}
    (h : validateAmount s = some (PyFloat.num q)) : 0 < q := by
  rcases (validateAmount_accepts_iff s _).mp h with ⟨_, hle⟩
  have hq : ¬ q ≤ 0 := by
    intro hq0
    simp [pyLeZero, hq0] at hle
  exact lt_of_not_le hq

/-- C7 (the code side): the input `"nan"` parses via `float()`, and the
guard `amount <= 0` is false for NaN (every IEEE comparison with NaN is
false), so the prompt accepts it and the loop returns it to be stored —
although NaN is not a number at all, let alone strictly greater than zero.
Zero, negative and non-numeric inputs are rejected as the claim says, and
the exponent and underscore forms of `float()` are accepted with their
positive numeric values. -/
theorem amount_validation_nan_bug :
    validateAmount "nan" = some PyFloat.nan ∧
    amountLoop ["nan"] = some PyFloat.nan ∧
    pyLeZero PyFloat.nan = false ∧
    pyIsNum PyFloat.nan = false ∧
    validateAmount "0" = none ∧
    validateAmount "-3" = none ∧
    validateAmount "abc" = none ∧
    validateAmount "1e3" = some (PyFloat.num 1000) ∧
    validateAmount "1_000" = some (PyFloat.num 1000) := by
  refine ⟨rfl, rfl, rfl, rfl, rfl, rfl, rfl, ?_, rfl⟩
  have hp3 : parsePyFloat "1e3" =
      some (PyFloat.num (((1 : ℕ) : ℚ) * 10 ^ ((3 : ℕ) : ℤ))) := rfl
  have h1000 : (((1 : ℕ) : ℚ) * 10 ^ ((3 : ℕ) : ℤ)) = 1000 := by
    rw [zpow_natCast]
    norm_num
  rw [validateAmount, hp3]
  show (if pyLeZero (PyFloat.num (((1 : ℕ) : ℚ) * 10 ^ ((3 : ℕ) : ℤ))) then
      (none : Option PyFloat)
    else some (PyFloat.num (((1 : ℕ) : ℚ) * 10 ^ ((3 : ℕ) : ℤ)))) =
      some (PyFloat.num 1000)
  have hle : pyLeZero (PyFloat.num (((1 : ℕ) : ℚ) * 10 ^ ((3 : ℕ) : ℤ))) = false := by
    simp only [pyLeZero, h1000]
    decide
  rw [hle, if_neg Bool.false_ne_true, h1000]

/-- C3 (the code side): a stored row whose amount field does not parse makes
`view_transactions` raise, and — with no handler in `view_transactions` or in
`main` — the dispatch of menu choice 2 ends in a crash of the process, not
in a return to the menu. -/
theorem view_crashes_on_bad_amount :
    runView [RawRow.mk "2024-01-01" "Food" "abc" "lunch"] = .crash "abc" := rfl

/-- C9: the add action appends exactly one row at the end of the store, all
read-path actions leave the store exactly unchanged, and any session script
only ever extends the initial store — every stored row is preserved
verbatim, in place, by all subsequent operations. -/
theorem store_append_only :
    (∀ (store : List RawRow) (date cat : String) (n k : ℕ) (desc : String),
      applyMenuAction store (.add date cat n k desc) =
        store ++ [RawRow.mk date cat (serializeDecimal n k) desc]) ∧
    (∀ store : List RawRow,
      applyMenuAction store .view = store ∧
      applyMenuAction store .summary = store ∧
      applyMenuAction store .visualize = store ∧
      applyMenuAction store .advise = store ∧
      applyMenuAction store .badChoice = store) ∧
    (∀ (actions : List MenuAction) (store : List RawRow),
      ∃ suffix : List RawRow, runSession store actions = store ++ suffix) := by
  refine ⟨fun store date cat n k desc => rfl, fun store => ⟨rfl, rfl, rfl, rfl, rfl⟩, ?_⟩
  intro actions
  induction actions with
  | nil =>
    intro store
    exact ⟨[], by simp [runSession]⟩
  | cons a rest ih =>
    intro store
    obtain ⟨suffix, hs⟩ := ih (applyMenuAction store a)
    cases a with
    | add date cat n k desc =>
      refine ⟨RawRow.mk date cat (serializeDecimal n k) desc :: suffix, ?_⟩
      rw [runSession, hs]
      simp [applyMenuAction, appendTxn]
    | view => exact ⟨suffix, by rw [runSession]; exact hs⟩
    | summary => exact ⟨suffix, by rw [runSession]; exact hs⟩
    | visualize => exact ⟨suffix, by rw [runSession]; exact hs⟩
    | advise => exact ⟨suffix, by rw [runSession]; exact hs⟩
    | badChoice => exact ⟨suffix, by rw [runSession]; exact hs⟩

/-! ### Aggregator theorems -/

/-- C4: on the empty record sequence the aggregator yields `"N/A"`, zero
total, and the empty mapping — all three operations are total on empty
input. -/
theorem empty_aggregates :
    topCategory [] = "N/A" ∧ totalSpending [] = 0 ∧ categoryTotals [] = [] :=
  ⟨rfl, rfl, rfl⟩

theorem totalSpending_cons (r : Txn) (rs : List Txn) :
    totalSpending (r :: rs) = r.amount + totalSpending rs := by
  simp [totalSpending]

theorem totalSpending_nonneg {records : List Txn}
    (h : ∀ r ∈ records, 0 < r.amount) : 0 ≤ totalSpending records := by
  induction records with
  | nil => simp [totalSpending]
  | cons r rs ih =>
    rw [totalSpending_cons]
    have h1 := h r (List.mem_cons_self r rs)
    have h2 := ih (fun r' hr' => h r' (List.mem_cons_of_mem r hr'))
    linarith

/-- C5: with a non-empty record sequence whose amounts are all strictly
positive, the grand total is strictly positive, so the divisions in the
per-category percentage (and the top-category percentage, whose numerator is
an entry of `categoryTotals`) are by a non-zero denominator: multiplying the
percentage back by the total recovers `amount * 100` exactly. -/
theorem percentage_well_defined (records : List Txn) (h1 : records ≠ [])
    (h2 : ∀ r ∈ records, 0 < r.amount) :
    0 < totalSpending records ∧
      ∀ p ∈ categoryTotals records,
        percentageOfTotal p.2 (totalSpending records) * totalSpending records =
          p.2 * 100 := by
  have hpos : 0 < totalSpending records := by
    cases records with
    | nil => exact absurd rfl h1
    | cons r rs =>
      rw [totalSpending_cons]
      have ha := h2 r (List.mem_cons_self r rs)
      have hb := totalSpending_nonneg (fun r' hr' => h2 r' (List.mem_cons_of_mem r hr'))
      linarith
  refine ⟨hpos, fun p _ => ?_⟩
  rw [percentageOfTotal]
  field_simp

/-- Witness for C5: the singleton `Food / 10` store has a strictly positive
total. -/
theorem percentage_well_defined_witness :
    0 < totalSpending [Txn.mk "2024-01-01" "Food" 10 "lunch"] :=
  (percentage_well_defined [Txn.mk "2024-01-01" "Food" 10 "lunch"]
    (by simp)
    (by
      intro r hr
      rw [List.mem_singleton] at hr
      subst hr
      show (0 : ℚ) < 10
      norm_num)).1

theorem totalSpending_filter_split (records : List Txn) (p : Txn → Bool) :
    totalSpending records =
      totalSpending (records.filter p) +
        totalSpending (records.filter (fun r => !(p r))) := by
  induction records with
  | nil => simp [totalSpending]
  | cons r rs ih =>
    rw [totalSpending_cons, ih]
    by_cases hp : p r = true
    · rw [List.filter_cons_of_pos hp, List.filter_cons_of_neg (by simp [hp]),
        totalSpending_cons]
      ring
    · rw [List.filter_cons_of_neg hp,
        List.filter_cons_of_pos (by simp [Bool.eq_false_iff.mpr hp]),
        totalSpending_cons]
      ring

theorem catSum_filter_ne (records : List Txn) (c c' : String) (h : c' ≠ c) :
    catSum (records.filter (fun r => !(r.category == c))) c' = catSum records c' := by
  rw [catSum, catSum, List.filter_filter]
  congr 1
  apply List.filter_congr
  intro r _
  by_cases hr : r.category = c'
  · simp [hr, h]
  · simp [hr]

theorem sum_catSum_of_cover :
    ∀ (cs : List String) (records : List Txn), cs.Nodup →
      (∀ r ∈ records, r.category ∈ cs) →
      (cs.map (catSum records)).sum = totalSpending records := by
  intro cs
  induction cs with
  | nil =>
    intro records _ hcov
    cases records with
    | nil => simp [totalSpending]
    | cons r rs => exact absurd (hcov r (List.mem_cons_self r rs)) (List.not_mem_nil _)
  | cons c cs ih =>
    intro records hnd hcov
    rw [List.map_cons, List.sum_cons]
    rcases List.nodup_cons.mp hnd with ⟨hcn, hnd'⟩
    have hmapeq : cs.map (catSum records) =
        cs.map (catSum (records.filter (fun r => !(r.category == c)))) := by
      apply List.map_congr_left
      intro c' hc'
      exact (catSum_filter_ne records c c' (fun he => hcn (he ▸ hc'))).symm
    have hcov' : ∀ r ∈ records.filter (fun r => !(r.category == c)), r.category ∈ cs := by
      intro r hr
      rcases List.mem_filter.mp hr with ⟨hrmem, hrneg⟩
      rcases List.mem_cons.mp (hcov r hrmem) with he | he
      · simp [he] at hrneg
      · exact he
    rw [hmapeq, ih _ hnd' hcov', catSum,
      totalSpending_filter_split records (fun r => r.category == c)]

/-- C2: the values of `categoryTotals` sum exactly to `totalSpending` —
grouping by category partitions the amounts with no loss or duplication
(exact rational arithmetic, for any record sequence including the empty
one). -/
theorem sum_categoryTotals (records : List Txn) :
    ((categoryTotals records).map Prod.snd).sum = totalSpending records := by
  have h1 : ((categoryTotals records).map Prod.snd).sum =
      ((sortLe pairLe (groupbySum records).enum).map
        (fun x : ℕ × (String × ℚ) => x.2.2)).sum := by
    rw [categoryTotals, sortValuesDesc, List.map_reverse, List.sum_reverse, List.map_map]
    rfl
  have h2 : ((sortLe pairLe (groupbySum records).enum).map
      (fun x : ℕ × (String × ℚ) => x.2.2)).sum =
      (((groupbySum records).enum).map (fun x : ℕ × (String × ℚ) => x.2.2)).sum :=
    ((perm_sortLe pairLe _).map _).sum_eq
  have h3 : (((groupbySum records).enum).map (fun x : ℕ × (String × ℚ) => x.2.2)).sum =
      ((groupbySum records).map Prod.snd).sum := by
    have heq : ((groupbySum records).enum).map (fun x : ℕ × (String × ℚ) => x.2.2) =
        (((groupbySum records).enum).map Prod.snd).map Prod.snd := by
      rw [List.map_map]
      rfl
    rw [heq, List.enum_map_snd]
  have h4 : ((groupbySum records).map Prod.snd).sum =
      ((sortedCats records).map (catSum records)).sum := by
    rw [groupbySum, List.map_map]
    rfl
  have h5 : ((sortedCats records).map (catSum records)).sum =
      ((uniqueCats (cats records)).map (catSum records)).sum :=
    ((perm_sortLe strLe _).map _).sum_eq
  rw [h1, h2, h3, h4, h5]
  apply sum_catSum_of_cover _ _ (nodup_uniqueCats _)
  intro r hr
  rw [mem_uniqueCats]
  exact List.mem_map_of_mem _ hr

theorem pairLe_total : ∀ x y, pairLe x y = true ∨ pairLe y x = true := by
  intro x y
  rcases lt_trichotomy x.2.2 y.2.2 with h | h | h
  · left; simp [pairLe, h]
  · rcases Nat.le_total x.1 y.1 with h' | h'
    · left; simp [pairLe, h, h']
    · right; simp [pairLe, h.symm, h']
  · right; simp [pairLe, h]

theorem pairLe_trans :
    ∀ x y z, pairLe x y = true → pairLe y z = true → pairLe x z = true := by
  intro x y z hxy hyz
  simp only [pairLe, Bool.or_eq_true, Bool.and_eq_true, decide_eq_true_eq] at hxy hyz ⊢
  rcases hxy with h1 | ⟨h1, h1'⟩
  · rcases hyz with h2 | ⟨h2, h2'⟩
    · exact Or.inl (lt_trans h1 h2)
    · exact Or.inl (by rw [← h2]; exact h1)
  · rcases hyz with h2 | ⟨h2, h2'⟩
    · exact Or.inl (by rw [h1]; exact h2)
    · exact Or.inr ⟨h1.trans h2, le_trans h1' h2'⟩

theorem string_data_inj {a b : String} (h : a.data = b.data) : a = b := by
  cases a
  cases b
  exact congrArg String.mk h

theorem groupbySum_names_sorted (records : List Txn) :
    (groupbySum records).Pairwise (fun p q => strLt p.1 q.1 = true) := by
  rw [groupbySum, List.pairwise_map]
  have hsorted : (sortedCats records).Pairwise (fun a b => strLe a b = true) :=
    pairwise_sortLe strLe_total (fun a b c h1 h2 => strLe_trans h1 h2) _
  have hnodup : (sortedCats records).Nodup :=
    ((perm_sortLe strLe _).symm).nodup (nodup_uniqueCats _)
  refine (hsorted.and hnodup).imp ?_
  rintro a b ⟨hle, hne⟩
  rcases strLtB_trichotomy a.data b.data with h | h | h
  · exact h
  · exact absurd (string_data_inj h) hne
  · exfalso
    unfold strLe strLt at hle
    rw [h] at hle
    exact Bool.noConfusion hle

theorem enum_nodup {α : Type} (l : List α) : l.enum.Nodup :=
  List.Nodup.of_map Prod.fst (List.nodup_enum_map_fst l)

theorem enum_eq_of_fst_eq {α : Type} {l : List α} {x y : ℕ × α}
    (hx : x ∈ l.enum) (hy : y ∈ l.enum) (h : x.1 = y.1) : x = y := by
  have hx' := List.mem_enum_iff_getElem?.mp hx
  have hy' := List.mem_enum_iff_getElem?.mp hy
  rw [← h] at hy'
  have h2 : x.2 = y.2 := Option.some.inj (hx'.symm.trans hy')
  exact Prod.ext h h2

theorem enum_names_lt (records : List Txn) {x y : ℕ × (String × ℚ)}
    (hx : x ∈ (groupbySum records).enum) (hy : y ∈ (groupbySum records).enum)
    (hxy : x.1 < y.1) : strLt x.2.1 y.2.1 = true := by
  have hx' := List.mem_enum_iff_getElem?.mp hx
  have hy' := List.mem_enum_iff_getElem?.mp hy
  rcases List.getElem?_eq_some.mp hx' with ⟨hxlen, hxe⟩
  rcases List.getElem?_eq_some.mp hy' with ⟨hylen, hye⟩
  have := List.pairwise_iff_getElem.mp (groupbySum_names_sorted records)
    x.1 y.1 hxlen hylen hxy
  rw [hxe, hye] at this
  exact this

theorem categoryTotals_pairwise (records : List Txn) :
    (categoryTotals records).Pairwise
      (fun p q => q.2 < p.2 ∨ (p.2 = q.2 ∧ strLt q.1 p.1 = true)) := by
  rw [categoryTotals, sortValuesDesc, List.pairwise_reverse, List.pairwise_map]
  have hs : (sortLe pairLe (groupbySum records).enum).Pairwise
      (fun x y => pairLe x y = true) :=
    pairwise_sortLe pairLe_total pairLe_trans _
  have hnd : (sortLe pairLe (groupbySum records).enum).Nodup :=
    ((perm_sortLe pairLe _).symm).nodup (enum_nodup _)
  refine (hs.and hnd).imp_of_mem ?_
  intro x y hxmem hymem hxy
  obtain ⟨hle, hne⟩ := hxy
  have hxe : x ∈ (groupbySum records).enum := (perm_sortLe pairLe _).mem_iff.mp hxmem
  have hye : y ∈ (groupbySum records).enum := (perm_sortLe pairLe _).mem_iff.mp hymem
  simp only [pairLe, Bool.or_eq_true, Bool.and_eq_true, decide_eq_true_eq] at hle
  rcases hle with h | ⟨heq, hidx⟩
  · exact Or.inl h
  · have hne' : x.1 ≠ y.1 := fun h1 => hne (enum_eq_of_fst_eq hxe hye h1)
    exact Or.inr ⟨heq.symm, enum_names_lt records hxe hye (lt_of_le_of_ne hidx hne')⟩

theorem mem_categoryTotals {records : List Txn} {p : String × ℚ}
    (hp : p ∈ categoryTotals records) :
    p.2 = catSum records p.1 ∧ p.1 ∈ cats records := by
  rw [categoryTotals, sortValuesDesc, List.mem_reverse] at hp
  rcases List.mem_map.mp hp with ⟨x, hx, hxp⟩
  have hxe : x ∈ (groupbySum records).enum := (perm_sortLe pairLe _).mem_iff.mp hx
  have hxl : x.2 ∈ groupbySum records := by
    have h := List.mem_enum_iff_getElem?.mp hxe
    rcases List.getElem?_eq_some.mp h with ⟨hlen, he⟩
    exact he ▸ List.getElem_mem hlen
  subst hxp
  rw [groupbySum] at hxl
  rcases List.mem_map.mp hxl with ⟨c, hc, hcx⟩
  rw [← hcx]
  refine ⟨rfl, ?_⟩
  exact mem_uniqueCats.mp ((perm_sortLe strLe _).mem_iff.mp hc)

theorem categoryTotals_fst_perm (records : List Txn) :
    ((categoryTotals records).map Prod.fst).Perm (uniqueCats (cats records)) := by
  have h1 : (categoryTotals records).map Prod.fst =
      ((sortLe pairLe (groupbySum records).enum).map
        (fun x : ℕ × (String × ℚ) => x.2.1)).reverse := by
    rw [categoryTotals, sortValuesDesc, List.map_reverse, List.map_map]
    rfl
  rw [h1]
  refine (List.reverse_perm _).trans ?_
  refine ((perm_sortLe pairLe _).map _).trans ?_
  have h2 : ((groupbySum records).enum).map (fun x : ℕ × (String × ℚ) => x.2.1) =
      (groupbySum records).map Prod.fst := by
    have heq : ((groupbySum records).enum).map (fun x : ℕ × (String × ℚ) => x.2.1) =
        (((groupbySum records).enum).map Prod.snd).map Prod.fst := by
      rw [List.map_map]
      rfl
    rw [heq, List.enum_map_snd]
  rw [h2]
  have h3 : (groupbySum records).map Prod.fst = sortedCats records := by
    rw [groupbySum, List.map_map]
    have hid : (Prod.fst ∘ fun c : String => (c, catSum records c)) = id := rfl
    rw [hid, List.map_id]
  rw [h3]
  exact perm_sortLe strLe _

/-- C1 (amended): `categoryTotals` lists exactly one entry per category
occurring in the records, carrying that category's summed amount, ordered
descending by summed amount; but two categories with equal sums appear in
descending lexicographic category-name order — the trace of the
alphabetical grouping followed by the order-reversing descending value
sort — not in first-appearance order; the empty sequence yields the empty
mapping. -/
theorem categoryTotals_ordering :
    (∀ records : List Txn,
      (categoryTotals records).Pairwise
        (fun p q => q.2 < p.2 ∨ (p.2 = q.2 ∧ strLt q.1 p.1 = true)) ∧
      (∀ p ∈ categoryTotals records, p.2 = catSum records p.1) ∧
      ((categoryTotals records).map Prod.fst).Nodup ∧
      (∀ c, c ∈ (categoryTotals records).map Prod.fst ↔ c ∈ cats records)) ∧
    categoryTotals [] = [] := by
  refine ⟨fun records => ⟨categoryTotals_pairwise records,
    fun p hp => (mem_categoryTotals hp).1, ?_, ?_⟩, rfl⟩
  · exact ((categoryTotals_fst_perm records).symm).nodup (nodup_uniqueCats _)
  · intro c
    rw [(categoryTotals_fst_perm records).mem_iff, mem_uniqueCats]

theorem categoryTotals_singleton (r : Txn) :
    categoryTotals [r] = [(r.category, r.amount)] := by
  have hc : catSum [r] r.category = r.amount := by
    simp [catSum, totalSpending]
  have hcats : sortedCats [r] = [r.category] := rfl
  rw [categoryTotals, groupbySum, hcats, List.map_cons, List.map_nil, hc]
  rfl

/-- Witness for C1 at the singleton `Food / 10` store: the lone
`categoryTotals` entry carries the category's sum. -/
theorem categoryTotals_ordering_witness :
    ("Food", (10 : ℚ)).2 = catSum [Txn.mk "2024-01-01" "Food" 10 "lunch"] "Food" := by
  have h := categoryTotals_singleton (Txn.mk "2024-01-01" "Food" 10 "lunch")
  have := (categoryTotals_ordering.1 [Txn.mk "2024-01-01" "Food" 10 "lunch"]).2.1
    ("Food", (10 : ℚ)) (by rw [h]; exact List.mem_singleton_self _)
  exact this

/-- C1 counterexample: three categories first appearing in the order
`"B"`, `"A"`, `"C"`, all with equal sums `10`.  First-appearance
tie-breaking (the spec, embodied by `specCategoryTotals`) keeps
`["B", "A", "C"]`; the code groups alphabetically and reverses, producing
`["C", "B", "A"]` — and even without the reversal the alphabetical grouping
alone would give `["A", "B", "C"]`, so no reading of the sort makes the
claim hold on this input. -/
theorem categoryTotals_tie_counterexample :
    categoryTotals [Txn.mk "2024-01-01" "B" 10 "x", Txn.mk "2024-01-02" "A" 10 "y",
        Txn.mk "2024-01-03" "C" 10 "z"] =
      [("C", (10 : ℚ)), ("B", (10 : ℚ)), ("A", (10 : ℚ))] ∧
    specCategoryTotals [Txn.mk "2024-01-01" "B" 10 "x", Txn.mk "2024-01-02" "A" 10 "y",
        Txn.mk "2024-01-03" "C" 10 "z"] =
      [("B", (10 : ℚ)), ("A", (10 : ℚ)), ("C", (10 : ℚ))] := by
  have hA : catSum [Txn.mk "2024-01-01" "B" 10 "x", Txn.mk "2024-01-02" "A" 10 "y",
      Txn.mk "2024-01-03" "C" 10 "z"] "A" = 10 := by
    simp [catSum, totalSpending]
  have hB : catSum [Txn.mk "2024-01-01" "B" 10 "x", Txn.mk "2024-01-02" "A" 10 "y",
      Txn.mk "2024-01-03" "C" 10 "z"] "B" = 10 := by
    simp [catSum, totalSpending]
  have hC : catSum [Txn.mk "2024-01-01" "B" 10 "x", Txn.mk "2024-01-02" "A" 10 "y",
      Txn.mk "2024-01-03" "C" 10 "z"] "C" = 10 := by
    simp [catSum, totalSpending]
  constructor
  · have hcats : sortedCats [Txn.mk "2024-01-01" "B" 10 "x",
        Txn.mk "2024-01-02" "A" 10 "y", Txn.mk "2024-01-03" "C" 10 "z"] =
        ["A", "B", "C"] := rfl
    rw [categoryTotals, groupbySum, hcats]
    rw [List.map_cons, List.map_cons, List.map_cons, List.map_nil, hA, hB, hC]
    rfl
  · have huniq : uniqueCats (cats [Txn.mk "2024-01-01" "B" 10 "x",
        Txn.mk "2024-01-02" "A" 10 "y", Txn.mk "2024-01-03" "C" 10 "z"]) =
        ["B", "A", "C"] := rfl
    rw [specCategoryTotals, huniq]
    rw [List.map_cons, List.map_cons, List.map_cons, List.map_nil, hB, hA, hC]
    rfl

/-! ### Advisor theorems -/

/-- C8: each of the six table categories maps to exactly 4 category-specific
tips, every category outside the table gets the fixed 4-item generic
fallback, and the output always ends with the same 3-line general-advice
block; the output is a pure function of the top category alone. -/
theorem advise_spec :
    (∀ c ∈ ["Food", "Transport", "Shopping", "Entertainment", "Bills", "Healthcare"],
      tipsTable c ≠ none ∧ (category_tips c).length = 4) ∧
    (∀ c, tipsTable c = none → category_tips c = genericTips) ∧
    genericTips.length = 4 ∧ generalAdvice.length = 3 ∧
    (∀ c, adviseOutput c = category_tips c ++ generalAdvice) := by
  refine ⟨?_, ?_, rfl, rfl, fun c => rfl⟩
  · intro c hc
    fin_cases hc <;> exact ⟨fun h => Option.noConfusion h, rfl⟩
  · intro c h
    rw [category_tips, h]
    rfl

/-- Witness for C8: `"Food"` gets 4 category tips; the unknown category
`"Unknown"` gets the generic fallback. -/
theorem advise_spec_witness :
    (category_tips "Food").length = 4 ∧ category_tips "Unknown" = genericTips :=
  ⟨(advise_spec.1 "Food" (by simp)).2, advise_spec.2.1 "Unknown" rfl⟩

/-- C10: whenever the dominant category is `"Other"` — the category
substituted for blank input and one of the suggested categories — the
advisor emits the 4-item generic fallback followed by the general advice,
because `"Other"` is not a key of the tips table. -/
theorem other_top_category_fallback (records : List Txn)
    (h : topCategory records = "Other") :
    adviseOutput (topCategory records) = genericTips ++ generalAdvice ∧
    defaultCategory "" = "Other" ∧ "Other" ∈ suggestedCategories ∧
    tipsTable "Other" = none := by
  refine ⟨?_, rfl, by simp [suggestedCategories], rfl⟩
  rw [h]
  rfl

/-- Witness for C10: a store whose only record is in category `"Other"` has
top category `"Other"`, and the advisor emits the generic fallback for it. -/
theorem other_top_category_fallback_witness :
    adviseOutput (topCategory [Txn.mk "2024-01-01" "Other" 5 "misc"]) =
      genericTips ++ generalAdvice := by
  have htop : topCategory [Txn.mk "2024-01-01" "Other" 5 "misc"] = "Other" := by
    rw [topCategory, categoryTotals_singleton]
  exact (other_top_category_fallback _ htop).1

theorem isDigit_ne_exp {c : Char} (h : c.isDigit = true) : ¬(c = 'e' ∨ c = 'E') := by
  rintro (rfl | rfl) <;> exact absurd h (by decide)

theorem isDigit_ne_underscore {c : Char} (h : c.isDigit = true) : c ≠ '_' := by
  rintro rfl
  exact absurd h (by decide)

theorem underscoresOkAux_of_none :
    ∀ (cs : List Char) (prev : Option Char), (∀ c ∈ cs, c ≠ '_') →
      underscoresOkAux prev cs = true := by
  intro cs
  induction cs with
  | nil => intro prev _; rfl
  | cons c rest ih =>
    intro prev h
    rw [underscoresOkAux, if_neg (h c (List.mem_cons_self c rest))]
    exact ih (some c) (fun c' hc' => h c' (List.mem_cons_of_mem c hc'))

theorem underscoresOk_of_none {cs : List Char} (h : ∀ c ∈ cs, c ≠ '_') :
    underscoresOk cs = true :=
  underscoresOkAux_of_none cs none h

theorem splitAtExp_of_no_exp :
    ∀ cs : List Char, (∀ c ∈ cs, ¬(c = 'e' ∨ c = 'E')) → splitAtExp cs = (cs, none) := by
  intro cs
  induction cs with
  | nil => intro _; rfl
  | cons c rest ih =>
    intro h
    rw [splitAtExp, if_neg (h c (List.mem_cons_self c rest)),
      ih (fun c' hc' => h c' (List.mem_cons_of_mem c hc'))]

theorem serial_chars (n k : ℕ) :
    ∀ c ∈ natToStr (n / 10 ^ k) ++ '.' :: padZeros k (natToStr (n % 10 ^ k)),
      c.isDigit = true ∨ c = '.' := by
  intro c hc
  rcases List.mem_append.mp hc with h | h
  · exact Or.inl (List.all_eq_true.mp (natToStr_digits _) c h)
  · rcases List.mem_cons.mp h with h | h
    · exact Or.inr h
    · exact Or.inl (List.all_eq_true.mp (padZeros_all_digits (natToStr_digits _)) c h)

/-- The full `float()` model agrees with the decimal fragment on every row
this program writes: the serialized decimal `n / 10^k` parses under the full
grammar to the same finite value.  (A written row has a leading digit,
contains no underscore and no exponent marker, and — because of the
mandatory dot — cannot be one of the words `inf`, `infinity`, `nan`.) -/
theorem parsePyFloat_serializeDecimal (n k : ℕ) :
    parsePyFloat (serializeDecimal n k) = some (PyFloat.num (decVal n k)) := by
  have hchars := serial_chars n k
  have hip_digits := natToStr_digits (n / 10 ^ k)
  obtain ⟨c, ip', hip⟩ : ∃ c ip', natToStr (n / 10 ^ k) = c :: ip' := by
    cases h : natToStr (n / 10 ^ k) with
    | nil => exact absurd h (natToStr_ne_nil _)
    | cons c ip' => exact ⟨c, ip', rfl⟩
  have hc : c.isDigit = true := by
    rw [hip, List.all_cons] at hip_digits
    exact (Bool.and_eq_true_iff.mp hip_digits).1
  obtain ⟨hcd, hcm, hcp⟩ := isDigit_ne_special hc
  have hdata : (serializeDecimal n k).data =
      c :: (ip' ++ '.' :: padZeros k (natToStr (n % 10 ^ k))) := by
    rw [serializeDecimal, hip]
    rfl
  rw [parsePyFloat, hdata]
  show (if c = '-' then
      (parsePyUnsigned (ip' ++ '.' :: padZeros k (natToStr (n % 10 ^ k)))).map pyNeg
    else if c = '+' then parsePyUnsigned (ip' ++ '.' :: padZeros k (natToStr (n % 10 ^ k)))
    else parsePyUnsigned (c :: (ip' ++ '.' :: padZeros k (natToStr (n % 10 ^ k))))) =
      some (PyFloat.num (decVal n k))
  rw [if_neg hcm, if_neg hcp]
  have hfold : c :: (ip' ++ '.' :: padZeros k (natToStr (n % 10 ^ k))) =
      natToStr (n / 10 ^ k) ++ '.' :: padZeros k (natToStr (n % 10 ^ k)) := by
    rw [hip]
    rfl
  rw [hfold]
  have hdot : '.' ∈ natToStr (n / 10 ^ k) ++ '.' :: padZeros k (natToStr (n % 10 ^ k)) :=
    List.mem_append.mpr (Or.inr (List.mem_cons_self _ _))
  have hdotlow : '.' ∈ (natToStr (n / 10 ^ k) ++
      '.' :: padZeros k (natToStr (n % 10 ^ k))).map Char.toLower :=
    List.mem_map.mpr ⟨'.', hdot, rfl⟩
  have hw1 : ¬((natToStr (n / 10 ^ k) ++
        '.' :: padZeros k (natToStr (n % 10 ^ k))).map Char.toLower = ['i', 'n', 'f'] ∨
      (natToStr (n / 10 ^ k) ++
        '.' :: padZeros k (natToStr (n % 10 ^ k))).map Char.toLower =
        ['i', 'n', 'f', 'i', 'n', 'i', 't', 'y']) := by
    rintro (hw | hw) <;> rw [hw] at hdotlow <;> exact absurd hdotlow (by decide)
  have hw2 : ¬((natToStr (n / 10 ^ k) ++
      '.' :: padZeros k (natToStr (n % 10 ^ k))).map Char.toLower = ['n', 'a', 'n']) := by
    intro hw
    rw [hw] at hdotlow
    exact absurd hdotlow (by decide)
  have hnound : ∀ c' ∈ natToStr (n / 10 ^ k) ++
      '.' :: padZeros k (natToStr (n % 10 ^ k)), c' ≠ '_' := by
    intro c' hc'
    rcases hchars c' hc' with h | h
    · exact isDigit_ne_underscore h
    · rw [h]
      decide
  have hnoexp : ∀ c' ∈ natToStr (n / 10 ^ k) ++
      '.' :: padZeros k (natToStr (n % 10 ^ k)), ¬(c' = 'e' ∨ c' = 'E') := by
    intro c' hc'
    rcases hchars c' hc' with h | h
    · exact isDigit_ne_exp h
    · rw [h]
      decide
  rw [parsePyUnsigned]
  rw [if_neg hw1, if_neg hw2, if_pos (underscoresOk_of_none hnound)]
  have hfilter : (natToStr (n / 10 ^ k) ++
      '.' :: padZeros k (natToStr (n % 10 ^ k))).filter (fun c => decide (c ≠ '_')) =
      natToStr (n / 10 ^ k) ++ '.' :: padZeros k (natToStr (n % 10 ^ k)) := by
    apply List.filter_eq_self.mpr
    intro a ha
    simpa using hnound a ha
  rw [hfilter, parseDecimalExp]
  rw [splitAtExp_of_no_exp _ hnoexp]
  show (parseUnsigned (natToStr (n / 10 ^ k) ++
      '.' :: padZeros k (natToStr (n % 10 ^ k)))).map PyFloat.num =
    some (PyFloat.num (decVal n k))
  rw [parseUnsigned_serialize n k]
  rfl
